import Mathlib

/-!
Verification of the tweetscape-streams backend behavior.

The development embeds the components described by the repository
documents (backend-behavior.md, the processing-queue scenario) and the
CDK sources under indexer/cdk/lib, and proves the specified properties
about them: idempotent graph upserts, chunked bulk writes, task status
monotonicity, range-tracker widening, the rate-limit handling of the
workflows, and the deployment-stage helpers.
-/

set_option autoImplicit false

namespace TweetscapeStreams

/-! ## Graph store model

Modelled from the spec: the graph store capability offers
upsertNode(label, key, properties) and upsertRelationship(fromKey,
toKey, type), both merge-or-create by identity key, never duplicating.
Node properties are last-write-wins scalars; relationships are
presence-only.  The implementation (models/streams.server.ts,
addTweetsFrom and friends) is not part of the shared sources, so the
write path is modelled from backend-behavior.md and section 4.4 of the
spec. -/

/-- Scalar properties of a node, as a list of key-value pairs. -/
abbrev NodeProps := List (String × String)

/-- One node row of the graph store; identity key is (label, key). -/
structure NodeEntry where
  label : String
  key : String
  props : NodeProps
deriving DecidableEq

/-- One relationship row; identity is the whole (fromKey, toKey, relType). -/
structure RelEntry where
  fromKey : String
  toKey : String
  relType : String
deriving DecidableEq

/-- The graph state: node rows and relationship rows in insertion order. -/
structure Graph where
  nodes : List NodeEntry
  rels : List RelEntry
deriving DecidableEq

/-- A single write of the upsert engine: a node merge or a relationship merge. -/
inductive UpsertOp where
  | node (label key : String) (props : NodeProps)
  | rel (fromKey toKey relType : String)
deriving DecidableEq

/-- Modelled from the spec: merge-or-create of a node by identity key
(label, key).  If the key is present the stored properties are replaced
(last write wins); otherwise a fresh row is appended.  Never duplicates. -/
def upsertNode : List NodeEntry → String → String → NodeProps → List NodeEntry
  | [], l, k, p => [⟨l, k, p⟩]
  | n :: ns, l, k, p =>
    if n.label = l ∧ n.key = k then ⟨l, k, p⟩ :: ns
    else n :: upsertNode ns l k p

/-- Modelled from the spec: merge-or-create of a relationship row,
presence-only: an existing identical row is left untouched. -/
def upsertRelationship : List RelEntry → RelEntry → List RelEntry
  | [], r => [r]
  | r0 :: rs, r => if r0 = r then r0 :: rs else r0 :: upsertRelationship rs r

/-- Applies one write to the graph state. -/
def applyOp (g : Graph) : UpsertOp → Graph
  | .node l k p => { g with nodes := upsertNode g.nodes l k p }
  | .rel s d t => { g with rels := upsertRelationship g.rels ⟨s, d, t⟩ }

/-- Modelled from the spec: the Graph Upsert Engine runs the writes of a
fetched batch in order over the graph state. -/
def applyBatch (g : Graph) (b : List UpsertOp) : Graph := b.foldl applyOp g

/-- Identity keys of the node rows, in row order. -/
def nodeKeys (ns : List NodeEntry) : List (String × String) :=
  ns.map (fun n => (n.label, n.key))

/-- Looks up the stored properties of the node with identity (l, k). -/
def lookupNode : List NodeEntry → String → String → Option NodeProps
  | [], _, _ => none
  | n :: ns, l, k => if n.label = l ∧ n.key = k then some n.props else lookupNode ns l k

/-- Properties written by the last node op of the batch on identity (l, k). -/
def lastProps : List UpsertOp → String → String → Option NodeProps
  | [], _, _ => none
  | op :: b, l, k =>
    match lastProps b l k with
    | some p => some p
    | none =>
      match op with
      | .node l2 k2 p => if l2 = l ∧ k2 = k then some p else none
      | .rel _ _ _ => none

/-- Node identity keys mentioned by the node ops of a batch. -/
def opNodeKeys : List UpsertOp → List (String × String)
  | [] => []
  | .node l k _ :: b => (l, k) :: opNodeKeys b
  | .rel _ _ _ :: b => opNodeKeys b

/-- Relationship rows mentioned by the relationship ops of a batch. -/
def opRels : List UpsertOp → List RelEntry
  | [] => []
  | .node _ _ _ :: b => opRels b
  | .rel s d t :: b => ⟨s, d, t⟩ :: opRels b

/-- A graph state with no duplicate node identity and no duplicate
relationship row. -/
def wellFormed (g : Graph) : Prop :=
  (nodeKeys g.nodes).Nodup ∧ g.rels.Nodup

instance (g : Graph) : Decidable (wellFormed g) := by
  unfold wellFormed; infer_instance

theorem lookupNode_upsertNode (ns : List NodeEntry) (l k : String) (p : NodeProps)
    (l2 k2 : String) :
    lookupNode (upsertNode ns l k p) l2 k2 =
      if l = l2 ∧ k = k2 then some p else lookupNode ns l2 k2 := by
  induction ns with
  | nil =>
    simp only [upsertNode, lookupNode]
  | cons n ns ih =>
    by_cases hn : n.label = l ∧ n.key = k
    · simp only [upsertNode, if_pos hn, lookupNode]
      by_cases h2 : l = l2 ∧ k = k2
      · simp [h2]
      · have hn2 : ¬ (n.label = l2 ∧ n.key = k2) := by
          rintro ⟨h1, h3⟩
          exact h2 ⟨hn.1 ▸ h1, hn.2 ▸ h3⟩
        simp [h2, hn2]
    · simp only [upsertNode, if_neg hn, lookupNode]
      by_cases hn2 : n.label = l2 ∧ n.key = k2
      · have h2 : ¬ (l = l2 ∧ k = k2) := by
          rintro ⟨h1, h3⟩
          exact hn ⟨h1 ▸ hn2.1, h3 ▸ hn2.2⟩
        simp [hn2, h2]
      · simp [hn2, ih]

theorem nodeKeys_upsertNode (ns : List NodeEntry) (l k : String) (p : NodeProps) :
    nodeKeys (upsertNode ns l k p) =
      if (l, k) ∈ nodeKeys ns then nodeKeys ns else nodeKeys ns ++ [(l, k)] := by
  induction ns with
  | nil => simp [upsertNode, nodeKeys]
  | cons n ns ih =>
    by_cases hn : n.label = l ∧ n.key = k
    · have hmem : (l, k) ∈ nodeKeys (n :: ns) := by
        simp [nodeKeys, hn.1.symm, hn.2.symm]
      simp only [upsertNode, if_pos hn, hmem, if_pos]
      simp [nodeKeys, hn.1, hn.2]
    · have hne : ((l, k) ∈ nodeKeys (n :: ns)) ↔ ((l, k) ∈ nodeKeys ns) := by
        simp only [nodeKeys, List.map_cons, List.mem_cons]
        constructor
        · rintro (h | h)
          · exact absurd ⟨(Prod.mk.injEq _ _ _ _ ▸ h.symm).1,
              (Prod.mk.injEq _ _ _ _ ▸ h.symm).2⟩ hn
          · exact h
        · exact fun h => Or.inr h
      by_cases hm : (l, k) ∈ nodeKeys ns
      · rw [if_pos (hne.mpr hm)]
        have hih := ih
        rw [if_pos hm] at hih
        simp only [upsertNode, if_neg hn, nodeKeys, List.map_cons]
        simp only [nodeKeys] at hih
        rw [hih]
      · rw [if_neg (fun h => hm (hne.mp h))]
        have hih := ih
        rw [if_neg hm] at hih
        simp only [upsertNode, if_neg hn, nodeKeys, List.map_cons]
        simp only [nodeKeys] at hih
        rw [hih]
        simp

theorem lookupNode_eq_none_iff (ns : List NodeEntry) (l k : String) :
    lookupNode ns l k = none ↔ (l, k) ∉ nodeKeys ns := by
  induction ns with
  | nil => simp [lookupNode, nodeKeys]
  | cons n ns ih =>
    by_cases hn : n.label = l ∧ n.key = k
    · simp only [lookupNode, if_pos hn, nodeKeys, List.map_cons, List.mem_cons]
      constructor
      · intro h; cases h
      · intro h
        exact absurd (Or.inl (by simp [hn.1, hn.2])) h
    · simp only [lookupNode, if_neg hn, nodeKeys, List.map_cons, List.mem_cons]
      rw [ih]
      simp only [nodeKeys]
      constructor
      · intro h hmem
        rcases hmem with h2 | h2
        · exact hn ⟨(Prod.mk.injEq _ _ _ _ ▸ h2.symm).1,
            (Prod.mk.injEq _ _ _ _ ▸ h2.symm).2⟩
        · exact h h2
      · intro h h2
        exact h (Or.inr h2)

theorem lookupNode_applyBatch (b : List UpsertOp) (g : Graph) (l k : String) :
    lookupNode (applyBatch g b).nodes l k =
      match lastProps b l k with
      | some p => some p
      | none => lookupNode g.nodes l k := by
  induction b generalizing g with
  | nil => simp [applyBatch, lastProps]
  | cons op b ih =>
    have hstep : applyBatch g (op :: b) = applyBatch (applyOp g op) b := rfl
    rw [hstep, ih]
    cases hlast : lastProps b l k with
    | some p => simp [lastProps, hlast]
    | none =>
      cases op with
      | node l2 k2 p =>
        simp only [lastProps, hlast, applyOp, lookupNode_upsertNode]
        by_cases h2 : l2 = l ∧ k2 = k
        · simp [h2]
        · simp [h2]
      | rel s d t =>
        simp [lastProps, hlast, applyOp]

theorem mem_nodeKeys_upsertNode (ns : List NodeEntry) (l k : String) (p : NodeProps)
    (x : String × String) (hx : x ∈ nodeKeys ns) :
    x ∈ nodeKeys (upsertNode ns l k p) := by
  rw [nodeKeys_upsertNode]
  by_cases hm : (l, k) ∈ nodeKeys ns
  · simpa [hm] using hx
  · simp [hm, hx]

theorem self_mem_nodeKeys_upsertNode (ns : List NodeEntry) (l k : String) (p : NodeProps) :
    (l, k) ∈ nodeKeys (upsertNode ns l k p) := by
  rw [nodeKeys_upsertNode]
  by_cases hm : (l, k) ∈ nodeKeys ns
  · simp [hm]
  · simp [hm]

theorem mem_nodeKeys_applyBatch (b : List UpsertOp) (g : Graph)
    (x : String × String) (hx : x ∈ nodeKeys g.nodes) :
    x ∈ nodeKeys (applyBatch g b).nodes := by
  induction b generalizing g with
  | nil => simpa [applyBatch]
  | cons op b ih =>
    have hstep : applyBatch g (op :: b) = applyBatch (applyOp g op) b := rfl
    rw [hstep]
    apply ih
    cases op with
    | node l k p => exact mem_nodeKeys_upsertNode _ _ _ _ _ hx
    | rel s d t => exact hx

theorem opNodeKeys_mem_applyBatch (b : List UpsertOp) (g : Graph)
    (x : String × String) (hx : x ∈ opNodeKeys b) :
    x ∈ nodeKeys (applyBatch g b).nodes := by
  induction b generalizing g with
  | nil => cases hx
  | cons op b ih =>
    have hstep : applyBatch g (op :: b) = applyBatch (applyOp g op) b := rfl
    rw [hstep]
    cases op with
    | node l k p =>
      simp only [opNodeKeys, List.mem_cons] at hx
      rcases hx with hx | hx
      · subst hx
        exact mem_nodeKeys_applyBatch _ _ _ (self_mem_nodeKeys_upsertNode _ _ _ _)
      · exact ih _ hx
    | rel s d t =>
      simp only [opNodeKeys] at hx
      exact ih _ hx

theorem nodeKeys_applyBatch_of_present (b : List UpsertOp) (g : Graph)
    (h : ∀ x ∈ opNodeKeys b, x ∈ nodeKeys g.nodes) :
    nodeKeys (applyBatch g b).nodes = nodeKeys g.nodes := by
  induction b generalizing g with
  | nil => simp [applyBatch]
  | cons op b ih =>
    have hstep : applyBatch g (op :: b) = applyBatch (applyOp g op) b := rfl
    rw [hstep]
    cases op with
    | node l k p =>
      have hlk : (l, k) ∈ nodeKeys g.nodes := by
        apply h
        simp [opNodeKeys]
      have hkeys : nodeKeys (applyOp g (.node l k p)).nodes = nodeKeys g.nodes := by
        simp only [applyOp]
        rw [nodeKeys_upsertNode, if_pos hlk]
      rw [ih _ (fun x hx => by
        rw [hkeys]
        exact h x (by simp [opNodeKeys, hx])), hkeys]
    | rel s d t =>
      exact ih _ (fun x hx => h x (by simpa [opNodeKeys] using hx))

theorem nodup_nodeKeys_upsertNode (ns : List NodeEntry) (l k : String) (p : NodeProps)
    (h : (nodeKeys ns).Nodup) : (nodeKeys (upsertNode ns l k p)).Nodup := by
  rw [nodeKeys_upsertNode]
  by_cases hm : (l, k) ∈ nodeKeys ns
  · simpa [hm]
  · simp [hm, List.Nodup.append, h, List.nodup_append]

theorem mem_upsertRelationship (rs : List RelEntry) (r x : RelEntry) :
    x ∈ upsertRelationship rs r ↔ x ∈ rs ∨ x = r := by
  induction rs with
  | nil => simp [upsertRelationship]
  | cons r0 rs ih =>
    by_cases h0 : r0 = r
    · subst h0
      have hupd : upsertRelationship (r0 :: rs) r0 = r0 :: rs := by
        simp [upsertRelationship]
      rw [hupd]
      simp only [List.mem_cons]
      tauto
    · simp only [upsertRelationship, if_neg h0, List.mem_cons, ih]
      tauto

theorem upsertRelationship_of_mem (rs : List RelEntry) (r : RelEntry) (h : r ∈ rs) :
    upsertRelationship rs r = rs := by
  induction rs with
  | nil => cases h
  | cons r0 rs ih =>
    by_cases h0 : r0 = r
    · simp [upsertRelationship, h0]
    · have hr : r ∈ rs := by
        rcases List.mem_cons.mp h with h1 | h1
        · exact absurd h1.symm h0
        · exact h1
      simp [upsertRelationship, h0, ih hr]

theorem upsertRelationship_of_not_mem (rs : List RelEntry) (r : RelEntry) (h : r ∉ rs) :
    upsertRelationship rs r = rs ++ [r] := by
  induction rs with
  | nil => simp [upsertRelationship]
  | cons r0 rs ih =>
    have h0 : r0 ≠ r := by
      intro he
      exact h (by simp [he])
    have hr : r ∉ rs := fun hm => h (by simp [hm])
    simp [upsertRelationship, h0, ih hr]

theorem nodup_upsertRelationship (rs : List RelEntry) (r : RelEntry) (h : rs.Nodup) :
    (upsertRelationship rs r).Nodup := by
  by_cases hm : r ∈ rs
  · rw [upsertRelationship_of_mem _ _ hm]
    exact h
  · rw [upsertRelationship_of_not_mem _ _ hm]
    simp [List.nodup_append, h, hm]

theorem rels_applyBatch_of_present (b : List UpsertOp) (g : Graph)
    (h : ∀ r ∈ opRels b, r ∈ g.rels) :
    (applyBatch g b).rels = g.rels := by
  induction b generalizing g with
  | nil => simp [applyBatch]
  | cons op b ih =>
    have hstep : applyBatch g (op :: b) = applyBatch (applyOp g op) b := rfl
    rw [hstep]
    cases op with
    | node l k p =>
      exact ih _ (fun r hr => h r (by simpa [opRels] using hr))
    | rel s d t =>
      have hin : (⟨s, d, t⟩ : RelEntry) ∈ g.rels := h _ (by simp [opRels])
      have hrels : (applyOp g (.rel s d t)).rels = g.rels := by
        simp only [applyOp]
        exact upsertRelationship_of_mem _ _ hin
      rw [ih _ (fun r hr => by
        rw [hrels]
        exact h r (by simp [opRels, hr])), hrels]

theorem mem_rels_applyBatch (b : List UpsertOp) (g : Graph)
    (r : RelEntry) (hr : r ∈ g.rels) : r ∈ (applyBatch g b).rels := by
  induction b generalizing g with
  | nil => simpa [applyBatch]
  | cons op b ih =>
    have hstep : applyBatch g (op :: b) = applyBatch (applyOp g op) b := rfl
    rw [hstep]
    apply ih
    cases op with
    | node l k p => exact hr
    | rel s d t =>
      simp only [applyOp]
      exact (mem_upsertRelationship _ _ _).mpr (Or.inl hr)

theorem opRels_mem_applyBatch (b : List UpsertOp) (g : Graph)
    (r : RelEntry) (hr : r ∈ opRels b) : r ∈ (applyBatch g b).rels := by
  induction b generalizing g with
  | nil => cases hr
  | cons op b ih =>
    have hstep : applyBatch g (op :: b) = applyBatch (applyOp g op) b := rfl
    rw [hstep]
    cases op with
    | node l k p =>
      simp only [opRels] at hr
      exact ih _ hr
    | rel s d t =>
      simp only [opRels, List.mem_cons] at hr
      rcases hr with hr | hr
      · subst hr
        apply mem_rels_applyBatch
        simp only [applyOp]
        exact (mem_upsertRelationship _ _ _).mpr (Or.inr rfl)
      · exact ih _ hr

theorem wellFormed_applyBatch (b : List UpsertOp) (g : Graph) (h : wellFormed g) :
    wellFormed (applyBatch g b) := by
  induction b generalizing g with
  | nil => simpa [applyBatch]
  | cons op b ih =>
    have hstep : applyBatch g (op :: b) = applyBatch (applyOp g op) b := rfl
    rw [hstep]
    apply ih
    cases op with
    | node l k p =>
      exact ⟨nodup_nodeKeys_upsertNode _ _ _ _ h.1, h.2⟩
    | rel s d t =>
      exact ⟨h.1, nodup_upsertRelationship _ _ h.2⟩

theorem nodes_ext : ∀ (ns1 ns2 : List NodeEntry),
    nodeKeys ns1 = nodeKeys ns2 → (nodeKeys ns1).Nodup →
    (∀ l k, lookupNode ns1 l k = lookupNode ns2 l k) → ns1 = ns2
  | [], [], _, _, _ => rfl
  | [], n2 :: ns2, hk, _, _ => by simp [nodeKeys] at hk
  | n1 :: ns1, [], hk, _, _ => by simp [nodeKeys] at hk
  | n1 :: ns1, n2 :: ns2, hk, hnd, hl => by
    have hk0 : (n1.label, n1.key) = (n2.label, n2.key) := by
      simpa [nodeKeys] using congrArg (fun xs => xs.head?) hk
    have hlab : n1.label = n2.label := (Prod.mk.injEq _ _ _ _ ▸ hk0).1
    have hkey2 : n1.key = n2.key := (Prod.mk.injEq _ _ _ _ ▸ hk0).2
    have hlk1 : lookupNode (n1 :: ns1) n1.label n1.key = some n1.props := by
      simp [lookupNode]
    have hlk2 : lookupNode (n2 :: ns2) n1.label n1.key = some n2.props := by
      simp [lookupNode, hlab, hkey2]
    have hprops : n1.props = n2.props := by
      have := (hlk1.symm.trans (hl n1.label n1.key)).trans hlk2
      exact Option.some.injEq _ _ ▸ this
    have hhd : n1 = n2 := by
      cases n1; cases n2
      simp_all
    have hktl : nodeKeys ns1 = nodeKeys ns2 := by
      simpa [nodeKeys] using congrArg (fun xs => xs.tail) hk
    have hndtl : (nodeKeys ns1).Nodup := by
      simp only [nodeKeys, List.map_cons, List.nodup_cons] at hnd
      exact hnd.2
    have hnotin : (n1.label, n1.key) ∉ nodeKeys ns1 := by
      simp only [nodeKeys, List.map_cons, List.nodup_cons] at hnd
      exact hnd.1
    have hltl : ∀ l k, lookupNode ns1 l k = lookupNode ns2 l k := by
      intro l k
      by_cases hc : (l, k) = (n1.label, n1.key)
      · have h1 : lookupNode ns1 l k = none := by
          rw [lookupNode_eq_none_iff]
          rw [hc]
          exact hnotin
        have h2 : lookupNode ns2 l k = none := by
          rw [lookupNode_eq_none_iff]
          rw [hc, ← hktl]
          exact hnotin
        rw [h1, h2]
      · have hc1 : ¬ (n1.label = l ∧ n1.key = k) := by
          rintro ⟨ha, hb⟩
          exact hc (by simp [ha, hb])
        have hc2 : ¬ (n2.label = l ∧ n2.key = k) := by
          rintro ⟨ha, hb⟩
          exact hc (by rw [← ha, ← hb, hlab, hkey2])
        have := hl l k
        simpa [lookupNode, hc1, hc2] using this
    rw [hhd, nodes_ext ns1 ns2 hktl hndtl hltl]

/-- C1: the Graph Upsert Engine is idempotent on every batch: applying a
batch twice gives the same graph state as applying it once; no duplicate
node identity or relationship row is ever created; and stored node
properties follow last-write-wins, so a re-applied batch never regresses
a property to a value other than the last one written. -/
theorem upsert_engine_idempotent (g : Graph) (b : List UpsertOp)
    (hg : wellFormed g) :
    applyBatch (applyBatch g b) b = applyBatch g b ∧
    wellFormed (applyBatch g b) ∧
    (∀ l k, lookupNode (applyBatch g b).nodes l k =
      match lastProps b l k with
      | some p => some p
      | none => lookupNode g.nodes l k) := by
  have hwf : wellFormed (applyBatch g b) := wellFormed_applyBatch b g hg
  refine ⟨?_, hwf, fun l k => lookupNode_applyBatch b g l k⟩
  have hkeys : nodeKeys (applyBatch (applyBatch g b) b).nodes
      = nodeKeys (applyBatch g b).nodes :=
    nodeKeys_applyBatch_of_present b (applyBatch g b)
      (fun x hx => opNodeKeys_mem_applyBatch b g x hx)
  have hrels : (applyBatch (applyBatch g b) b).rels = (applyBatch g b).rels :=
    rels_applyBatch_of_present b (applyBatch g b)
      (fun r hr => opRels_mem_applyBatch b g r hr)
  have hnd : (nodeKeys (applyBatch (applyBatch g b) b).nodes).Nodup := by
    rw [hkeys]
    exact hwf.1
  have hlook : ∀ l k, lookupNode (applyBatch (applyBatch g b) b).nodes l k
      = lookupNode (applyBatch g b).nodes l k := by
    intro l k
    rw [lookupNode_applyBatch b (applyBatch g b) l k,
      lookupNode_applyBatch b g l k]
    cases hlast : lastProps b l k with
    | some p => simp
    | none => simp [lookupNode_applyBatch b g l k, hlast]
  have hnodes : (applyBatch (applyBatch g b) b).nodes = (applyBatch g b).nodes :=
    nodes_ext _ _ hkeys hnd hlook
  cases hq : applyBatch (applyBatch g b) b with
  | mk ns rs =>
    cases hq2 : applyBatch g b with
    | mk ns2 rs2 =>
      have h1 : ns = ns2 := by
        have := hnodes
        rw [hq, hq2] at this
        exact this
      have h2 : rs = rs2 := by
        have := hrels
        rw [hq, hq2] at this
        exact this
      rw [h1, h2]

/-- Witness for C1 at a concrete batch and the empty graph. -/
theorem upsert_engine_idempotent_witness :
    wellFormed ⟨[], []⟩ ∧
    applyBatch (applyBatch ⟨[], []⟩
        [.node "Account" "acct_1" [("username", "alice")],
         .rel "acct_1" "tweet_1" "POSTED"])
        [.node "Account" "acct_1" [("username", "alice")],
         .rel "acct_1" "tweet_1" "POSTED"]
      = applyBatch ⟨[], []⟩
        [.node "Account" "acct_1" [("username", "alice")],
         .rel "acct_1" "tweet_1" "POSTED"] :=
  ⟨by decide,
   (upsert_engine_idempotent ⟨[], []⟩
     [.node "Account" "acct_1" [("username", "alice")],
      .rel "acct_1" "tweet_1" "POSTED"] (by decide)).1⟩

/-! ## Bulk writes

Modelled from the spec: bulkWrites (backend-behavior.md) splits a given
array into chunks of 100 items and processes each chunk with a given
write function.  The implementation lives in models/streams.server.ts,
which is not part of the shared sources. -/

/-- Splits a list into consecutive chunks of n items; the final chunk
may be shorter.  With n = 0 the whole list is one chunk (the source
always uses 100). -/
def chunksOf {α : Type} : Nat → List α → List (List α)
  | _, [] => []
  | 0, x :: xs => [x :: xs]
  | n + 1, x :: xs => (x :: xs.take n) :: chunksOf (n + 1) (xs.drop n)
termination_by _ xs => xs.length
decreasing_by
  simp only [List.length_cons, List.length_drop]
  omega

/-- Modelled from the spec: bulkWrites splits the items into chunks of
100 and folds the given write function over the chunks in order. -/
def bulkWrites (write : Graph → List UpsertOp → Graph) (items : List UpsertOp)
    (g : Graph) : Graph :=
  (chunksOf 100 items).foldl write g

theorem chunksOf_flatten {α : Type} : ∀ (n : Nat) (xs : List α),
    (chunksOf n xs).flatten = xs
  | _, [] => by rw [chunksOf]; rfl
  | 0, x :: xs => by rw [chunksOf]; simp
  | n + 1, x :: xs => by
    rw [chunksOf]
    simp only [List.flatten_cons, List.cons_append, List.cons.injEq, true_and]
    rw [chunksOf_flatten (n + 1) (xs.drop n)]
    exact List.take_append_drop n xs
termination_by _ xs => xs.length
decreasing_by
  simp only [List.length_cons, List.length_drop]
  omega

theorem mem_chunksOf {α : Type} : ∀ (n : Nat) (xs : List α) (c : List α),
    c ∈ chunksOf (n + 1) xs → c ≠ [] ∧ c.length ≤ n + 1
  | _, [], c => by intro h; rw [chunksOf] at h; cases h
  | n, x :: xs, c => by
    intro h
    rw [chunksOf] at h
    rcases List.mem_cons.mp h with h | h
    · subst h
      refine ⟨by simp, ?_⟩
      simp only [List.length_cons, List.length_take]
      omega
    · exact mem_chunksOf n (xs.drop n) c h
termination_by _ xs => xs.length
decreasing_by
  simp only [List.length_cons, List.length_drop]
  omega

theorem mem_dropLast_chunksOf {α : Type} : ∀ (n : Nat) (xs : List α) (c : List α),
    c ∈ (chunksOf (n + 1) xs).dropLast → c.length = n + 1
  | _, [], c => by intro h; rw [chunksOf] at h; cases h
  | n, x :: xs, c => by
    intro h
    rw [chunksOf] at h
    cases hrest : chunksOf (n + 1) (xs.drop n) with
    | nil =>
      rw [hrest] at h
      cases h
    | cons c0 cs =>
      rw [hrest] at h
      rw [List.dropLast_cons₂] at h
      rcases List.mem_cons.mp h with h | h
      · subst h
        have hne : xs.drop n ≠ [] := by
          intro hnil
          rw [hnil] at hrest
          rw [chunksOf] at hrest
          cases hrest
        have hlen : n < xs.length := by
          by_contra hle
          exact hne (List.drop_eq_nil_of_le (by omega))
        simp only [List.length_cons, List.length_take]
        omega
      · have hrec := mem_dropLast_chunksOf n (xs.drop n) c
        rw [hrest] at hrec
        exact hrec h
termination_by _ xs => xs.length
decreasing_by
  simp only [List.length_cons, List.length_drop]
  omega

theorem foldl_applyBatch_chunks (cs : List (List UpsertOp)) (g : Graph) :
    cs.foldl applyBatch g = applyBatch g cs.flatten := by
  induction cs generalizing g with
  | nil => simp [applyBatch]
  | cons c cs ih =>
    simp only [List.foldl_cons, List.flatten_cons]
    rw [ih]
    simp only [applyBatch, List.foldl_append]

/-- C6: running the upsert write path through bulkWrites (chunks of 100)
produces a graph state identical to applying the whole batch as a single
chunk, for every batch and every initial graph state. -/
theorem bulkWrites_chunking_equivalence (g : Graph) (items : List UpsertOp) :
    bulkWrites applyBatch items g = applyBatch g items := by
  rw [bulkWrites, foldl_applyBatch_chunks, chunksOf_flatten]

/-- C7: bulkWrites partitions the input into consecutive chunks whose
in-order concatenation is the original array; every chunk is nonempty
with at most 100 items; every chunk but the last has exactly 100 items;
and the given write function is folded over exactly these chunks. -/
theorem bulkWrites_partition (items : List UpsertOp)
    (write : Graph → List UpsertOp → Graph) (g : Graph) :
    (chunksOf 100 items).flatten = items ∧
    (∀ c ∈ chunksOf 100 items, c ≠ [] ∧ c.length ≤ 100) ∧
    (∀ c ∈ (chunksOf 100 items).dropLast, c.length = 100) ∧
    bulkWrites write items g = (chunksOf 100 items).foldl write g := by
  refine ⟨chunksOf_flatten 100 items, ?_, ?_, rfl⟩
  · intro c hc
    exact mem_chunksOf 99 items c hc
  · intro c hc
    exact mem_dropLast_chunksOf 99 items c hc

/-- Witness for C7 on a concrete batch of 250 items: the in-order
concatenation of the chunks recovers the batch. -/
theorem bulkWrites_partition_witness :
    (chunksOf 100 (List.replicate 250 (UpsertOp.rel "a" "b" "T"))).flatten
      = List.replicate 250 (UpsertOp.rel "a" "b" "T") :=
  (bulkWrites_partition (List.replicate 250 (UpsertOp.rel "a" "b" "T"))
    applyBatch ⟨[], []⟩).1

/-! ## Task store

Modelled from the spec: the Task Store holds the task status, mutated
only by markProcessing, markDone and markFailed, each enforcing the
legal-transition invariant queued to processing to done-or-failed and
failing with IllegalTransitionError otherwise.  The store implementation
is not part of the shared sources; it is modelled from section 4.1 of
the spec and the processing-queue scenario document. -/

/-- The four task statuses of the data model. -/
inductive TaskStatus where
  | queued
  | processing
  | done
  | failed
deriving DecidableEq

/-- Errors of the Task Store operations. -/
inductive StoreError where
  | illegalTransitionError
  | notFoundError
  | validationError
deriving DecidableEq

/-- The status-mutating operations of the Task Store. -/
inductive MarkOp where
  | markProcessing
  | markDone
  | markFailed
deriving DecidableEq

/-- Modelled from the spec: each mark operation checks the stored status
and either returns the new status or fails with IllegalTransitionError. -/
def applyMark (s : TaskStatus) : MarkOp → Except StoreError TaskStatus
  | .markProcessing =>
    match s with
    | .queued => .ok .processing
    | _ => .error .illegalTransitionError
  | .markDone =>
    match s with
    | .processing => .ok .done
    | _ => .error .illegalTransitionError
  | .markFailed =>
    match s with
    | .processing => .ok .failed
    | _ => .error .illegalTransitionError

/-- The stored status after attempting a mark operation: a failing
operation leaves the stored status unchanged. -/
def runMark (s : TaskStatus) (op : MarkOp) : TaskStatus :=
  match applyMark s op with
  | .ok s2 => s2
  | .error _ => s

/-- The sequence of stored statuses observed while a list of mark
operations is attempted, starting from status s. -/
def statusTrace (s : TaskStatus) : List MarkOp → List TaskStatus
  | [] => [s]
  | op :: ops => s :: statusTrace (runMark s op) ops

/-- Collapses adjacent equal statuses, leaving the distinct progression. -/
def dedupAdj : List TaskStatus → List TaskStatus
  | [] => []
  | [s] => [s]
  | s :: s2 :: rest => if s = s2 then dedupAdj (s2 :: rest) else s :: dedupAdj (s2 :: rest)

theorem statusTrace_cons (s : TaskStatus) (ops : List MarkOp) :
    ∃ t, statusTrace s ops = s :: t := by
  cases ops with
  | nil => exact ⟨[], rfl⟩
  | cons op ops => exact ⟨statusTrace (runMark s op) ops, rfl⟩

theorem dedupAdj_cons_of_head (s : TaskStatus) (t : List TaskStatus)
    (ops : List MarkOp) (h : statusTrace s ops = t) :
    dedupAdj (s :: t) = dedupAdj t := by
  obtain ⟨t2, ht⟩ := statusTrace_cons s ops
  rw [← h, ht]
  simp [dedupAdj]

theorem dedupAdj_trace_done (ops : List MarkOp) :
    dedupAdj (statusTrace .done ops) = [.done] := by
  induction ops with
  | nil => rfl
  | cons op ops ih =>
    have hrun : runMark .done op = .done := by
      cases op <;> rfl
    have hstep : statusTrace .done (op :: ops) = .done :: statusTrace .done ops := by
      simp [statusTrace, hrun]
    rw [hstep, dedupAdj_cons_of_head .done _ ops rfl, ih]

theorem dedupAdj_trace_failed (ops : List MarkOp) :
    dedupAdj (statusTrace .failed ops) = [.failed] := by
  induction ops with
  | nil => rfl
  | cons op ops ih =>
    have hrun : runMark .failed op = .failed := by
      cases op <;> rfl
    have hstep : statusTrace .failed (op :: ops) = .failed :: statusTrace .failed ops := by
      simp [statusTrace, hrun]
    rw [hstep, dedupAdj_cons_of_head .failed _ ops rfl, ih]

theorem dedupAdj_cons_ne (s s2 : TaskStatus) (t : List TaskStatus)
    (ops : List MarkOp) (hne : s ≠ s2) (h : statusTrace s2 ops = t) :
    dedupAdj (s :: t) = s :: dedupAdj t := by
  obtain ⟨t2, ht⟩ := statusTrace_cons s2 ops
  rw [← h, ht]
  simp [dedupAdj, hne]

theorem dedupAdj_trace_processing (ops : List MarkOp) :
    dedupAdj (statusTrace .processing ops) = [.processing] ∨
    dedupAdj (statusTrace .processing ops) = [.processing, .done] ∨
    dedupAdj (statusTrace .processing ops) = [.processing, .failed] := by
  induction ops with
  | nil => exact Or.inl rfl
  | cons op ops ih =>
    cases op with
    | markProcessing =>
      have hrun : runMark .processing .markProcessing = .processing := rfl
      have hstep : statusTrace .processing (.markProcessing :: ops)
          = .processing :: statusTrace .processing ops := by
        simp [statusTrace, hrun]
      rw [hstep, dedupAdj_cons_of_head .processing _ ops rfl]
      exact ih
    | markDone =>
      have hstep : statusTrace .processing (.markDone :: ops)
          = .processing :: statusTrace .done ops := by
        simp [statusTrace, runMark, applyMark]
      rw [hstep, dedupAdj_cons_ne .processing .done _ ops (by decide) rfl,
        dedupAdj_trace_done]
      exact Or.inr (Or.inl rfl)
    | markFailed =>
      have hstep : statusTrace .processing (.markFailed :: ops)
          = .processing :: statusTrace .failed ops := by
        simp [statusTrace, runMark, applyMark]
      rw [hstep, dedupAdj_cons_ne .processing .failed _ ops (by decide) rfl,
        dedupAdj_trace_failed]
      exact Or.inr (Or.inr rfl)

/-- C2: the observed statuses of a task form a subsequence of queued,
processing, done-or-failed and never regress; each mark operation
succeeds exactly on the legal transitions queued-to-processing,
processing-to-done and processing-to-failed, and every other request
fails with IllegalTransitionError, leaving the stored status unchanged. -/
theorem task_status_monotonic :
    (∀ s op, applyMark s op =
      if (s = .queued ∧ op = .markProcessing) ∨
         (s = .processing ∧ (op = .markDone ∨ op = .markFailed))
      then .ok (runMark s op)
      else .error .illegalTransitionError) ∧
    (∀ s op e, applyMark s op = .error e → runMark s op = s) ∧
    (∀ ops, List.Sublist (dedupAdj (statusTrace .queued ops))
        [.queued, .processing, .done] ∨
      List.Sublist (dedupAdj (statusTrace .queued ops))
        [.queued, .processing, .failed]) := by
  refine ⟨?_, ?_, ?_⟩
  · intro s op
    cases s <;> cases op <;> rfl
  · intro s op e h
    cases s <;> cases op <;> first
      | rfl
      | (cases h)
  · intro ops
    induction ops with
    | nil =>
      exact Or.inl (by decide)
    | cons op ops ih =>
      cases op with
      | markProcessing =>
        have hstep : statusTrace .queued (.markProcessing :: ops)
            = .queued :: statusTrace .processing ops := by
          simp [statusTrace, runMark, applyMark]
        rw [hstep, dedupAdj_cons_ne .queued .processing _ ops (by decide) rfl]
        rcases dedupAdj_trace_processing ops with h | h | h
        · rw [h]
          exact Or.inl (by decide)
        · rw [h]
          exact Or.inl (by decide)
        · rw [h]
          exact Or.inr (by decide)
      | markDone =>
        have hrun : runMark .queued .markDone = .queued := rfl
        have hstep : statusTrace .queued (.markDone :: ops)
            = .queued :: statusTrace .queued ops := by
          simp [statusTrace, hrun]
        rw [hstep, dedupAdj_cons_of_head .queued _ ops rfl]
        exact ih
      | markFailed =>
        have hrun : runMark .queued .markFailed = .queued := rfl
        have hstep : statusTrace .queued (.markFailed :: ops)
            = .queued :: statusTrace .queued ops := by
          simp [statusTrace, hrun]
        rw [hstep, dedupAdj_cons_of_head .queued _ ops rfl]
        exact ih

/-- Witness for C2: an illegal request (markDone on a queued task) fails
and leaves the stored status queued. -/
theorem task_status_monotonic_witness :
    runMark .queued .markDone = .queued :=
  task_status_monotonic.2.1 .queued .markDone .illegalTransitionError (by rfl)

/-! ## Range tracker

Modelled from the spec: the per-account Indexed Range holds oldestSeenId
and newestSeenId, unset until the first successful fetch, and is mutated
only by extendOlder and extendNewer (section 4.3).  The implementation
(updateUserIndexedTweetIds in models/user.server.ts) is not part of the
shared sources.  Tweet IDs are ordered naturals. -/

/-- The indexed range of an account: bounds of the contiguous window. -/
structure TweetRange where
  oldestSeenId : Nat
  newestSeenId : Nat
deriving DecidableEq

/-- Error raised when an extend operation would narrow the range. -/
inductive RangeFault where
  | invariantViolation
deriving DecidableEq

/-- Modelled from the spec: extendOlder fails with InvariantViolation
unless the new boundary is older than the current oldestSeenId; on an
unset range it sets the bound. -/
def extendOlder (r : Option TweetRange) (b : Nat) :
    Except RangeFault (Option TweetRange) :=
  match r with
  | none => .ok (some ⟨b, b⟩)
  | some r0 =>
    if b < r0.oldestSeenId then .ok (some ⟨b, r0.newestSeenId⟩)
    else .error .invariantViolation

/-- Modelled from the spec: extendNewer is symmetric to extendOlder for
the newer bound. -/
def extendNewer (r : Option TweetRange) (b : Nat) :
    Except RangeFault (Option TweetRange) :=
  match r with
  | none => .ok (some ⟨b, b⟩)
  | some r0 =>
    if r0.newestSeenId < b then .ok (some ⟨r0.oldestSeenId, b⟩)
    else .error .invariantViolation

/-- The two mutators of the stored range, as history entries. -/
inductive RangeOp where
  | older (b : Nat)
  | newer (b : Nat)
deriving DecidableEq

/-- Runs one extend operation; a failing operation leaves the range
unchanged. -/
def runRangeOp (r : Option TweetRange) : RangeOp → Option TweetRange
  | .older b =>
    match extendOlder r b with
    | .ok r2 => r2
    | .error _ => r
  | .newer b =>
    match extendNewer r b with
    | .ok r2 => r2
    | .error _ => r

/-- Runs a history of extend operations over the stored range. -/
def runRangeOps (r : Option TweetRange) (ops : List RangeOp) : Option TweetRange :=
  ops.foldl runRangeOp r

theorem runRangeOp_widening (r0 : TweetRange) (op : RangeOp) :
    ∃ r1, runRangeOp (some r0) op = some r1 ∧
      r1.oldestSeenId ≤ r0.oldestSeenId ∧ r0.newestSeenId ≤ r1.newestSeenId := by
  cases op with
  | older b =>
    by_cases hb : b < r0.oldestSeenId
    · exact ⟨⟨b, r0.newestSeenId⟩, by simp [runRangeOp, extendOlder, hb],
        le_of_lt hb, le_refl _⟩
    · exact ⟨r0, by simp [runRangeOp, extendOlder, hb], le_refl _, le_refl _⟩
  | newer b =>
    by_cases hb : r0.newestSeenId < b
    · exact ⟨⟨r0.oldestSeenId, b⟩, by simp [runRangeOp, extendNewer, hb],
        le_refl _, le_of_lt hb⟩
    · exact ⟨r0, by simp [runRangeOp, extendNewer, hb], le_refl _, le_refl _⟩

/-- C3: across any history of extend operations, oldestSeenId is
non-increasing and newestSeenId is non-decreasing; extendOlder fails
with InvariantViolation unless the boundary is older than oldestSeenId
(setting the bound when the range is unset), and extendNewer is
symmetric for the newer bound. -/
theorem range_monotonic_widening :
    (∀ (r0 : TweetRange) (ops : List RangeOp) (r1 : TweetRange),
      runRangeOps (some r0) ops = some r1 →
      r1.oldestSeenId ≤ r0.oldestSeenId ∧ r0.newestSeenId ≤ r1.newestSeenId) ∧
    (∀ (r0 : TweetRange) (b : Nat), ¬ b < r0.oldestSeenId →
      extendOlder (some r0) b = .error .invariantViolation) ∧
    (∀ (r0 : TweetRange) (b : Nat), b < r0.oldestSeenId →
      extendOlder (some r0) b = .ok (some ⟨b, r0.newestSeenId⟩)) ∧
    (∀ (r0 : TweetRange) (b : Nat), ¬ r0.newestSeenId < b →
      extendNewer (some r0) b = .error .invariantViolation) ∧
    (∀ (r0 : TweetRange) (b : Nat), r0.newestSeenId < b →
      extendNewer (some r0) b = .ok (some ⟨r0.oldestSeenId, b⟩)) ∧
    (∀ b : Nat, extendOlder none b = .ok (some ⟨b, b⟩) ∧
      extendNewer none b = .ok (some ⟨b, b⟩)) := by
  refine ⟨?_, ?_, ?_, ?_, ?_, ?_⟩
  · intro r0 ops
    induction ops generalizing r0 with
    | nil =>
      intro r1 h
      simp only [runRangeOps, List.foldl_nil, Option.some.injEq] at h
      subst h
      exact ⟨le_refl _, le_refl _⟩
    | cons op ops ih =>
      intro r1 h
      obtain ⟨r2, hr2, ho, hn⟩ := runRangeOp_widening r0 op
      have hrest : runRangeOps (some r2) ops = some r1 := by
        simpa [runRangeOps, hr2] using h
      obtain ⟨ho2, hn2⟩ := ih r2 r1 hrest
      exact ⟨le_trans ho2 ho, le_trans hn hn2⟩
  · intro r0 b hb
    simp [extendOlder, hb]
  · intro r0 b hb
    simp [extendOlder, hb]
  · intro r0 b hb
    simp [extendNewer, hb]
  · intro r0 b hb
    simp [extendNewer, hb]
  · intro b
    exact ⟨rfl, rfl⟩

/-- Witness for C3 at the scenario values: extending the range 100..139
with the newer boundary 159 yields 100..159, widening both bounds. -/
theorem range_monotonic_widening_witness :
    (TweetRange.mk 100 159).oldestSeenId ≤ (TweetRange.mk 100 139).oldestSeenId ∧
    (TweetRange.mk 100 139).newestSeenId ≤ (TweetRange.mk 100 159).newestSeenId :=
  range_monotonic_widening.1 ⟨100, 139⟩ [.newer 159] ⟨100, 159⟩ (by decide)

/-! ## Timeline fetch direction

Modelled from the spec: indexUserOlderTweets pulls the latest 100 tweets
before the oldest indexed tweet; indexUserNewTweets pulls the oldest 100
tweets after the newest indexed tweet, or the latest 100 tweets when the
account is not indexed yet (backend-behavior.md, and step 3 of the
per-account subscenario).  pullTweets and these callers live in
models/user.server.ts, which is not part of the shared sources. -/

/-- Which direction a run extends the indexed window. -/
inductive FetchDirection where
  | older
  | newer
deriving DecidableEq

/-- The page request handed to the timeline capability. -/
inductive TimelineQuery where
  | newestPage (pageSize : Nat)
  | beforeId (boundary : Nat) (pageSize : Nat)
  | afterId (boundary : Nat) (pageSize : Nat)
deriving DecidableEq

/-- Modelled from the spec: the page requested for an account given its
indexed range and the direction being extended. -/
def timelineQuery (r : Option TweetRange) (d : FetchDirection) : TimelineQuery :=
  match r, d with
  | none, _ => .newestPage 100
  | some r0, .older => .beforeId r0.oldestSeenId 100
  | some r0, .newer => .afterId r0.newestSeenId 100

/-- The bounded page size of a query. -/
def queryPageSize : TimelineQuery → Nat
  | .newestPage n => n
  | .beforeId _ n => n
  | .afterId _ n => n

/-- Whether a tweet ID satisfies the condition of a query. -/
def matchesQuery : TimelineQuery → Nat → Bool
  | .newestPage _, _ => true
  | .beforeId b _, id => id < b
  | .afterId b _, id => b < id

/-- Modelled from the spec: pullTweets returns at most pageSize tweets
of the timeline satisfying the given conditions. -/
def pullTweets (timeline : List Nat) (q : TimelineQuery) : List Nat :=
  (timeline.filter (matchesQuery q)).take (queryPageSize q)

/-- C8: an unindexed account is asked for its newest page of at most 100
items; with a range present, an older-direction run requests the page of
at most 100 items immediately older than oldestSeenId and a
newer-direction run the page immediately newer than newestSeenId: every
returned tweet ID lies strictly beyond the respective bound. -/
theorem timeline_fetch_direction :
    (∀ d, timelineQuery none d = .newestPage 100) ∧
    (∀ r0 : TweetRange, timelineQuery (some r0) .older = .beforeId r0.oldestSeenId 100) ∧
    (∀ r0 : TweetRange, timelineQuery (some r0) .newer = .afterId r0.newestSeenId 100) ∧
    (∀ (tl : List Nat) (r : Option TweetRange) (d : FetchDirection),
      (pullTweets tl (timelineQuery r d)).length ≤ 100) ∧
    (∀ (tl : List Nat) (r0 : TweetRange) (id : Nat),
      id ∈ pullTweets tl (timelineQuery (some r0) .older) → id < r0.oldestSeenId) ∧
    (∀ (tl : List Nat) (r0 : TweetRange) (id : Nat),
      id ∈ pullTweets tl (timelineQuery (some r0) .newer) → r0.newestSeenId < id) := by
  have hsize : ∀ (r : Option TweetRange) (d : FetchDirection),
      queryPageSize (timelineQuery r d) = 100 := by
    intro r d
    cases r <;> cases d <;> rfl
  refine ⟨fun d => by cases d <;> rfl, fun r0 => rfl, fun r0 => rfl, ?_, ?_, ?_⟩
  · intro tl r d
    calc (pullTweets tl (timelineQuery r d)).length
        ≤ queryPageSize (timelineQuery r d) := by
          simp [pullTweets, List.length_take]
      _ = 100 := hsize r d
  · intro tl r0 id hid
    have hmem : id ∈ tl.filter (matchesQuery (timelineQuery (some r0) .older)) :=
      List.mem_of_mem_take hid
    have := (List.mem_filter.mp hmem).2
    simpa [timelineQuery, matchesQuery] using this
  · intro tl r0 id hid
    have hmem : id ∈ tl.filter (matchesQuery (timelineQuery (some r0) .newer)) :=
      List.mem_of_mem_take hid
    have := (List.mem_filter.mp hmem).2
    simpa [timelineQuery, matchesQuery] using this

/-- Witness for C8: in a concrete timeline, an older-direction pull for
the range 100..139 returns only IDs older than 100. -/
theorem timeline_fetch_direction_witness :
    (99 : Nat) < (TweetRange.mk 100 139).oldestSeenId :=
  timeline_fetch_direction.2.2.2.2.1 [150, 99, 120] ⟨100, 139⟩ 99 (by decide)

/-! ## Per-account subscenario and rate-limit handling

Modelled from the spec: the per-account subscenario runs the steps
credential resolution, account-metadata fetch, timeline fetch, graph
upsert, range update.  On a rate-limit failure of either fetch the whole
subscenario suspends and, after the wait, restarts from step 1
(processing-queue scenario, Exception-2-A and Exception-4-A: wait 15
minutes, start over the subscenario from Step 1).  The workflow
implementation is not part of the shared sources. -/

/-- The five steps of the per-account subscenario, in spec numbering. -/
inductive WfStepId where
  | resolveCredential
  | fetchMetadata
  | fetchTimeline
  | runUpsert
  | updateRange
deriving DecidableEq

/-- The control state of one per-account subscenario. -/
inductive WfPhase where
  | atStep (s : WfStepId)
  | suspendedUntil (failedAt : WfStepId) (resumeAt : Nat)
  | subDone
deriving DecidableEq

/-- The step that follows each step when it completes normally. -/
def nextStep : WfStepId → WfPhase
  | .resolveCredential => .atStep .fetchMetadata
  | .fetchMetadata => .atStep .fetchTimeline
  | .fetchTimeline => .atStep .runUpsert
  | .runUpsert => .atStep .updateRange
  | .updateRange => .subDone

/-- Outcome of the upstream call a step performs. -/
inductive FetchOutcome where
  | success
  | rateLimited
deriving DecidableEq

/-- Modelled from the spec: a rate-limited fetch at the metadata or
timeline step suspends the whole subscenario until now plus 15 minutes;
every other step advances to its successor. -/
def advancePhase (p : WfPhase) (o : FetchOutcome) (now : Nat) : WfPhase :=
  match p with
  | .atStep s =>
    match s, o with
    | .fetchMetadata, .rateLimited => .suspendedUntil .fetchMetadata (now + 15 * 60)
    | .fetchTimeline, .rateLimited => .suspendedUntil .fetchTimeline (now + 15 * 60)
    | _, _ => nextStep s
  | p => p

/-- Modelled from the spec: a suspended subscenario resumes by starting
over from Step 1, credential resolution. -/
def resumePhase : WfPhase → WfPhase
  | .suspendedUntil _ _ => .atStep .resolveCredential
  | p => p

/-- C4: a rate-limited fetch at the metadata or timeline step suspends
the entire subscenario; resuming re-enters at step 1 (credential
resolution), never at the step that failed; and a completed rerun after
the partial work of the interrupted attempt leaves no duplicate node or
relationship in the graph. -/
theorem rate_limit_restarts_subscenario (s : WfStepId) (now : Nat)
    (h : s = .fetchMetadata ∨ s = .fetchTimeline) :
    advancePhase (.atStep s) .rateLimited now = .suspendedUntil s (now + 15 * 60) ∧
    resumePhase (advancePhase (.atStep s) .rateLimited now) = .atStep .resolveCredential ∧
    resumePhase (advancePhase (.atStep s) .rateLimited now) ≠ .atStep s ∧
    (∀ (g : Graph) (firstTryOps rerunOps : List UpsertOp), wellFormed g →
      wellFormed (applyBatch (applyBatch g firstTryOps) rerunOps)) := by
  have hcases : advancePhase (.atStep s) .rateLimited now
      = .suspendedUntil s (now + 15 * 60) := by
    rcases h with h | h <;> subst h <;> rfl
  refine ⟨hcases, by rw [hcases]; rfl, ?_, ?_⟩
  · rw [hcases]
    rcases h with h | h <;> subst h <;> simp [resumePhase]
  · intro g firstTryOps rerunOps hg
    exact wellFormed_applyBatch rerunOps _ (wellFormed_applyBatch firstTryOps g hg)

/-- Witness for C4 at the timeline step: the suspended subscenario
resumes at credential resolution, and rerunning a batch after partial
work keeps the graph free of duplicates. -/
theorem rate_limit_restarts_subscenario_witness :
    resumePhase (advancePhase (.atStep .fetchTimeline) .rateLimited 0)
      = .atStep .resolveCredential ∧
    wellFormed (applyBatch
      (applyBatch ⟨[], []⟩ [.node "Account" "acct_2" []])
      [.node "Account" "acct_2" [], .node "Tweet" "t1" [],
       .rel "acct_2" "t1" "POSTED"]) :=
  ⟨(rate_limit_restarts_subscenario .fetchTimeline 0 (Or.inr rfl)).2.1,
   (rate_limit_restarts_subscenario .fetchTimeline 0 (Or.inr rfl)).2.2.2
     ⟨[], []⟩ [.node "Account" "acct_2" []]
     [.node "Account" "acct_2" [], .node "Tweet" "t1" [],
      .rel "acct_2" "t1" "POSTED"] (by decide)⟩

/-! ## Rate-limit resume time of the add-seed-account workflow

Embeds addRateLimitRetry in indexer/cdk/lib/on-demand-indexer.ts: the
catch chain extracts the error cause, extracts errorMessage from it, and
then a Wait state waits until the timestamp read from
rateLimitReset inside the extracted message.  There is no other branch:
when the failure carries no such timestamp the Wait state has no resume
time (the state machine cannot wait a fallback delay). -/

/-- The data of a caught RateLimitError after the two extraction passes:
the rateLimitReset timestamp of the error message, when present. -/
structure RateLimitFailure where
  rateLimitReset : Option Nat
deriving DecidableEq

/-- Embeds the WaitRateLimitReset state: the resume timestamp is exactly
the rateLimitReset field of the extracted message; no fallback exists. -/
def waitRateLimitReset (f : RateLimitFailure) : Option Nat :=
  f.rateLimitReset

/-- Follows the claim wording, for comparison: the reset timestamp when
available, otherwise the failure time plus a fixed 15 minutes. -/
def claimedResumeTime (failAt : Nat) (f : RateLimitFailure) : Nat :=
  match f.rateLimitReset with
  | some t => t
  | none => failAt + 15 * 60

/-- C5 counterexample: for a rate-limit failure carrying no reset
timestamp, the workflow resume time is not the failure time plus 15
minutes — the Wait state simply has no timestamp to wait for. -/
theorem resume_time_no_fallback_counterexample :
    waitRateLimitReset ⟨none⟩ ≠ some (claimedResumeTime 0 ⟨none⟩) := by
  decide

/-- C5 amended: the resume time equals the upstream-provided reset
timestamp whenever the failure carries one; when it does not, the
workflow has no resume time at all — in particular it never falls back
to the failure time plus 15 minutes. -/
theorem resume_time_from_reset_timestamp (f : RateLimitFailure) (t : Nat)
    (h : f.rateLimitReset = some t) :
    waitRateLimitReset f = some t ∧
    waitRateLimitReset ⟨none⟩ = none ∧
    (∀ failAt : Nat, waitRateLimitReset ⟨none⟩ ≠ some (failAt + 15 * 60)) := by
  refine ⟨by rw [waitRateLimitReset, h], rfl, ?_⟩
  intro failAt
  simp [waitRateLimitReset]

/-- Witness for the amended C5 at a concrete failure carrying the reset
timestamp 900. -/
theorem resume_time_from_reset_timestamp_witness :
    waitRateLimitReset ⟨some 900⟩ = some 900 :=
  (resume_time_from_reset_timestamp ⟨some 900⟩ 900 (by rfl)).1

/-! ## Deployment stage

Embeds indexer/cdk/lib/deployment-stage.ts: DEPLOYMENT_STAGES,
isDeploymentStage and getDeploymentStage.  The CDK context value is
modelled as an optional string; a missing context entry is none. -/

/-- Possible deployment stage values. -/
def DEPLOYMENT_STAGES : List String := ["development", "production"]

/-- Name of the CDK context that specifies the deployment stage. -/
def DEPLOYMENT_STAGE_CONTEXT : String := "tweetscape:stage"

/-- Returns if a given string is a deployment stage: it scans
DEPLOYMENT_STAGES for an equal entry. -/
def isDeploymentStage (stageStr : String) : Bool :=
  DEPLOYMENT_STAGES.any (fun stage => stage == stageStr)

/-- The error getDeploymentStage throws. -/
inductive CdkFault where
  | rangeError (msg : String)
deriving DecidableEq

/-- Obtains the deployment stage from the CDK context value: a missing
value or a value that is not a deployment stage raises a RangeError;
otherwise the context value is returned unchanged. -/
def getDeploymentStage (ctxStage : Option String) : Except CdkFault String :=
  match ctxStage with
  | none =>
    .error (.rangeError ("context \"" ++ DEPLOYMENT_STAGE_CONTEXT ++ "\" must be specified"))
  | some stage =>
    if isDeploymentStage stage then .ok stage
    else .error (.rangeError ("invalid deployment stage: " ++ stage))

/-- C9: isDeploymentStage accepts exactly development and production;
getDeploymentStage returns the context value unchanged when it is a
deployment stage, and throws a RangeError exactly when the value is
absent or not a deployment stage. -/
theorem deployment_stage_contract :
    (∀ s, isDeploymentStage s = true ↔ (s = "development" ∨ s = "production")) ∧
    (∀ s, isDeploymentStage s = true → getDeploymentStage (some s) = .ok s) ∧
    (getDeploymentStage none =
      .error (.rangeError ("context \"" ++ DEPLOYMENT_STAGE_CONTEXT ++ "\" must be specified"))) ∧
    (∀ s, isDeploymentStage s = false →
      getDeploymentStage (some s) = .error (.rangeError ("invalid deployment stage: " ++ s))) ∧
    (∀ ctx s, getDeploymentStage ctx = .ok s → ctx = some s ∧ isDeploymentStage s = true) := by
  refine ⟨?_, ?_, rfl, ?_, ?_⟩
  · intro s
    simp only [isDeploymentStage, DEPLOYMENT_STAGES, List.any_cons, List.any_nil,
      Bool.or_false, Bool.or_eq_true, beq_iff_eq]
    constructor
    · rintro (h | h)
      · exact Or.inl h.symm
      · exact Or.inr h.symm
    · rintro (h | h)
      · exact Or.inl h.symm
      · exact Or.inr h.symm
  · intro s hs
    simp [getDeploymentStage, hs]
  · intro s hs
    simp [getDeploymentStage, hs]
  · intro ctx s h
    cases ctx with
    | none => cases h
    | some v =>
      by_cases hv : isDeploymentStage v
      · simp only [getDeploymentStage, if_pos hv, Except.ok.injEq] at h
        subst h
        exact ⟨rfl, hv⟩
      · rw [getDeploymentStage, if_neg hv] at h
        exact Except.noConfusion h

/-- Witness for C9 at the concrete stage development. -/
theorem deployment_stage_contract_witness :
    getDeploymentStage (some "development") = .ok "development" :=
  deployment_stage_contract.2.1 "development" (by rfl)

/-! ## Add-seed-account workflow chain

Embeds createAddSeedAccountToStreamWorkflow and addRateLimitRetry in
indexer/cdk/lib/on-demand-indexer.ts: the four Lambda invocation states
are chained in a fixed order, and addRateLimitRetry is called only on
the InvokeIndexFollowing state, attaching the catch chain extract cause,
extract message, wait for the reset timestamp, re-invoke the task. -/

/-- The four Lambda steps of the add-seed-account workflow. -/
inductive SeedWfStep where
  | upsertTwitterAccount
  | addSeedAccountToStream
  | indexTweetsFromAccount
  | indexFollowing
deriving DecidableEq

/-- The workflow definition: the invocation states in chained order. -/
def addSeedAccountToStreamWorkflow : List SeedWfStep :=
  [.upsertTwitterAccount, .addSeedAccountToStream, .indexTweetsFromAccount,
   .indexFollowing]

/-- Which steps addRateLimitRetry was applied to: only the
InvokeIndexFollowing state has the RateLimitError catch. -/
def hasRateLimitCatch : SeedWfStep → Bool
  | .indexFollowing => true
  | _ => false

/-- The states of the catch chain addRateLimitRetry attaches. -/
inductive HandlerAction where
  | extractCause
  | extractMessage
  | waitReset
  | reinvoke (s : SeedWfStep)
deriving DecidableEq

/-- The catch chain of addRateLimitRetry: extract Cause, extract
errorMessage, wait until the rate limit reset, then re-invoke the task. -/
def rateLimitCatchChain (s : SeedWfStep) : List HandlerAction :=
  [.extractCause, .extractMessage, .waitReset, .reinvoke s]

/-- Result of one workflow execution. -/
inductive ExecResult where
  | succeeded
  | failedUncaught (s : SeedWfStep)
deriving DecidableEq

/-- Runs the chained steps; failures s gives the number of RateLimitError
outcomes a step raises before succeeding.  A caught error re-invokes the
step after the catch chain; an uncaught error fails the execution at
that step with zero retries. -/
def runSeedSteps : List SeedWfStep → (SeedWfStep → Nat) → ExecResult × List (SeedWfStep × Nat)
  | [], _ => (.succeeded, [])
  | s :: rest, failures =>
    if failures s = 0 then
      ((runSeedSteps rest failures).1, (s, 0) :: (runSeedSteps rest failures).2)
    else if hasRateLimitCatch s then
      ((runSeedSteps rest failures).1, (s, failures s) :: (runSeedSteps rest failures).2)
    else (.failedUncaught s, [(s, 0)])

/-- Runs the add-seed-account workflow. -/
def runSeedWorkflow (failures : SeedWfStep → Nat) : ExecResult × List (SeedWfStep × Nat) :=
  runSeedSteps addSeedAccountToStreamWorkflow failures

/-- C10: the four Lambda steps run in the fixed order upsert account,
add seed account to stream, index tweets, index following; the
rate-limit catch chain (extract cause, wait for the reset timestamp,
re-invoke) is attached only to the index-following step, so a
RateLimitError raised by any of the three earlier steps is never caught:
the execution fails at that step with zero retries, while rate-limit
errors at index-following are retried to completion. -/
theorem seed_workflow_rate_limit_scope :
    addSeedAccountToStreamWorkflow =
      [.upsertTwitterAccount, .addSeedAccountToStream, .indexTweetsFromAccount,
       .indexFollowing] ∧
    (∀ s, hasRateLimitCatch s = true ↔ s = .indexFollowing) ∧
    (∀ s, (rateLimitCatchChain s).getLast? = some (.reinvoke s)) ∧
    (∀ failures : SeedWfStep → Nat, failures .upsertTwitterAccount ≠ 0 →
      runSeedWorkflow failures =
        (.failedUncaught .upsertTwitterAccount, [(.upsertTwitterAccount, 0)])) ∧
    (∀ failures : SeedWfStep → Nat, failures .upsertTwitterAccount = 0 →
      failures .addSeedAccountToStream ≠ 0 →
      (runSeedWorkflow failures).1 = .failedUncaught .addSeedAccountToStream) ∧
    (∀ failures : SeedWfStep → Nat, failures .upsertTwitterAccount = 0 →
      failures .addSeedAccountToStream = 0 →
      failures .indexTweetsFromAccount ≠ 0 →
      (runSeedWorkflow failures).1 = .failedUncaught .indexTweetsFromAccount) ∧
    (∀ failures : SeedWfStep → Nat, failures .upsertTwitterAccount = 0 →
      failures .addSeedAccountToStream = 0 →
      failures .indexTweetsFromAccount = 0 →
      runSeedWorkflow failures =
        (.succeeded, [(.upsertTwitterAccount, 0), (.addSeedAccountToStream, 0),
          (.indexTweetsFromAccount, 0), (.indexFollowing, failures .indexFollowing)])) := by
  refine ⟨rfl, ?_, ?_, ?_, ?_, ?_, ?_⟩
  · intro s
    cases s <;> simp [hasRateLimitCatch]
  · intro s
    rfl
  · intro failures h1
    simp [runSeedWorkflow, addSeedAccountToStreamWorkflow, runSeedSteps, h1,
      hasRateLimitCatch]
  · intro failures h1 h2
    simp [runSeedWorkflow, addSeedAccountToStreamWorkflow, runSeedSteps, h1, h2,
      hasRateLimitCatch]
  · intro failures h1 h2 h3
    simp [runSeedWorkflow, addSeedAccountToStreamWorkflow, runSeedSteps, h1, h2, h3,
      hasRateLimitCatch]
  · intro failures h1 h2 h3
    by_cases h4 : failures .indexFollowing = 0
    · simp [runSeedWorkflow, addSeedAccountToStreamWorkflow, runSeedSteps, h1, h2, h3,
        h4, hasRateLimitCatch]
    · simp [runSeedWorkflow, addSeedAccountToStreamWorkflow, runSeedSteps, h1, h2, h3,
        h4, hasRateLimitCatch]

/-- Witness for C10: with two rate-limit failures at index-following and
none elsewhere, the workflow succeeds after two caught retries; a
failure at the first step is uncaught. -/
theorem seed_workflow_rate_limit_scope_witness :
    runSeedWorkflow (fun s => match s with | .indexFollowing => 2 | _ => 0) =
      (.succeeded, [(.upsertTwitterAccount, 0), (.addSeedAccountToStream, 0),
        (.indexTweetsFromAccount, 0), (.indexFollowing, 2)]) ∧
    runSeedWorkflow (fun s => match s with | .upsertTwitterAccount => 1 | _ => 0) =
      (.failedUncaught .upsertTwitterAccount, [(.upsertTwitterAccount, 0)]) :=
  ⟨seed_workflow_rate_limit_scope.2.2.2.2.2.2
     (fun s => match s with | .indexFollowing => 2 | _ => 0) rfl rfl rfl,
   seed_workflow_rate_limit_scope.2.2.2.1
     (fun s => match s with | .upsertTwitterAccount => 1 | _ => 0) (by decide)⟩
